import Mathlib

/-!
# Verification of the sunrise alarm clock controller (`alarm_system.py`)

A shallow embedding of the core of the repository's single-process alarm
controller, together with proofs about the claims of its specification.

Conventions:
* Python strings are embedded as `List Char`.
* Python machine-independent `int` is embedded as `Int` (Python ints are
  unbounded); `float` arithmetic in the animation is embedded over `ℚ`
  (every literal that occurs — `0.75`, `0.25`, `0.4` — is an exact decimal,
  and the embedding keeps the source's expressions verbatim over `ℚ`).
* Wall-clock instants are embedded as a 24-hour `(h24, m)` pair,
  `h24 < 24`, `m < 60`; `datetime.now().strftime` is embedded by rendering
  that pair the way `"%I:%M %p"` does.
-/

namespace AlarmClock

/-! ## Python string primitives used by `check_alarm` / `save_alarm` -/

/-- Decimal digits of a natural number, most significant first
(`Nat.toDigits 10` is core's fuel-based, kernel-reducible converter). -/
def natChars (n : Nat) : List Char := Nat.toDigits 10 n

/-- Python `str(int)`: an optional minus sign followed by decimal digits. -/
def intChars (n : Int) : List Char :=
  if n < 0 then '-' :: natChars n.natAbs else natChars n.toNat

/-- Python `f"{n:02d}"`: the decimal rendering, left-padded with `'0'`
to a minimum width of 2. -/
def format02d (n : Int) : List Char :=
  let s := intChars n
  if s.length < 2 then '0' :: s else s

/-- Python `s.replace(' AM', '')`: remove every (non-overlapping,
left-to-right) occurrence of the three-character substring `" AM"`. -/
def replaceAM : List Char → List Char
  | [] => []
  | [c] => [c]
  | [c₁, c₂] => [c₁, c₂]
  | c₁ :: c₂ :: c₃ :: rest =>
    if c₁ = ' ' ∧ c₂ = 'A' ∧ c₃ = 'M' then replaceAM rest
    else c₁ :: replaceAM (c₂ :: c₃ :: rest)

/-- Python `s.split(':')`: split at every colon (`"".split(':') = [""]`,
`n` separators yield `n+1` pieces). -/
def splitColon : List Char → List (List Char)
  | [] => [[]]
  | c :: rest =>
    if c = ':' then [] :: splitColon rest
    else
      match splitColon rest with
      | [] => [[c]]
      | p :: ps => (c :: p) :: ps

/-- Whitespace stripped by Python `int(str)` before parsing. -/
def isPyWs (c : Char) : Bool := c = ' ' || c = '\t' || c = '\n' || c = '\r'

/-- Strip leading and trailing whitespace. -/
def stripWs (s : List Char) : List Char :=
  ((s.dropWhile isPyWs).reverse.dropWhile isPyWs).reverse

/-- Value of a nonempty all-digit string, most significant digit first. -/
def digitsVal (l : List Char) : Option Nat :=
  if l ≠ [] ∧ l.all (fun c => c.isDigit) then
    some (l.foldl (fun a c => 10 * a + (c.toNat - 48)) 0)
  else none

/-- Python `int(str)`: strip whitespace, optional sign, then a nonempty
run of decimal digits; any other shape raises `ValueError` (here: `none`). -/
def pyInt (s : List Char) : Option Int :=
  match stripWs s with
  | '-' :: rest => (digitsVal rest).map (fun v => -(v : Int))
  | '+' :: rest => (digitsVal rest).map (fun v => (v : Int))
  | t => (digitsVal t).map (fun v => (v : Int))

/-! ## Persisted settings and the schedule evaluator -/

/-- The persisted record `{'enabled': …, 'time': …}` of
`alarm_settings.json`; `time` is `None` (`none`) or a string. -/
structure Settings where
  enabled : Bool
  time : Option (List Char)
  deriving Repr, DecidableEq

/-- `save_alarm`'s stored string `f"{hour:02d}:{minute:02d} AM"`. -/
def alarmTimeString (hour minute : Nat) : List Char :=
  format02d (hour : Int) ++ ':' :: (format02d (minute : Int) ++ [' ', 'A', 'M'])

/-- The parsing step of `check_alarm`:
`alarm_hour, alarm_minute = alarm_time.replace(' AM', '').split(':')`
followed by `int(…)` on both parts.  The tuple unpacking requires exactly
two pieces; any failure is caught by the surrounding `try`/`except`. -/
def parseAlarmTime (s : List Char) : Option (Int × Int) :=
  match splitColon (replaceAM s) with
  | [a, b] =>
    match pyInt a, pyInt b with
    | some x, some y => some (x, y)
    | _, _ => none
  | _ => none

/-- `%I` of `strftime`: 12-hour hour (01–12) of a 24-hour hour. -/
def hour12 (h24 : Nat) : Nat :=
  if h24 % 12 = 0 then 12 else h24 % 12

/-- `now.strftime("%I:%M %p")`: zero-padded 12-hour clock rendering of the
instant with hour-of-day `h24` and minute `m`. -/
def strftimeIMp (h24 m : Nat) : List Char :=
  format02d (hour12 h24 : Int) ++ ':' ::
    (format02d (m : Int) ++ [' ', (if h24 < 12 then 'A' else 'P'), 'M'])

/-- `check_alarm` (the schedule evaluator `should_trigger`): returns true
exactly when the current instant, rendered via `"%I:%M %p"`, equals the
string `f"{trigger_hour:02d}:{trigger_minute:02d} AM"` built from the
stored time minus 20 minutes (minute underflow borrows an hour, hour
underflow wraps `1 → 12`).  Disabled settings, an unset/empty time
(Python falsiness of `None` and `""`), and any parse failure yield false. -/
def checkAlarm (settings : Settings) (h24 m : Nat) : Bool :=
  if !settings.enabled then false
  else
    match settings.time with
    | none => false
    | some s =>
      if s = [] then false
      else
        match parseAlarmTime s with
        | none => false
        | some (alarmHour, alarmMinute) =>
          let triggerMinute := alarmMinute - 20
          let triggerHour := alarmHour
          let (triggerHour, triggerMinute) :=
            if triggerMinute < 0 then
              let tm := triggerMinute + 60
              let th := triggerHour - 1
              (if th < 1 then 12 else th, tm)
            else (triggerHour, triggerMinute)
          let triggerTime := format02d triggerHour ++ ':' ::
            (format02d triggerMinute ++ [' ', 'A', 'M'])
          strftimeIMp h24 m = triggerTime

/-! ## IEEE-754 binary64 arithmetic, exactly

`sunrise_animation` computes its colours in Python floats (IEEE-754
binary64).  Every binary64 value is an exact rational, and each Python
arithmetic operation produces the exact rational result of the operation
rounded once to the nearest representable binary64 value (ties to even).
The model below implements that rounding over `ℚ`: `roundD q` rounds `q`
to a 53-bit significand at `q`'s own binary exponent.  Overflow and
subnormal handling are unnecessary for the magnitudes arising here (all
nonzero values lie between 2^-9 and 2^7).  The model was checked to
reproduce the program's float64 results at every one of the 200 animation
steps.

(`Rat.add`/`mul`/`inv`/`sub` are `@[irreducible]` in the library, which
only affects elaborator-side unfolding; they are restored to
`semireducible` so that `decide` can evaluate concrete rational
arithmetic.) -/

set_option allowUnsafeReducibility true in
attribute [semireducible] Rat.add Rat.mul Rat.inv Rat.sub

/-- Floor of the binary logarithm of `n ≥ 1`, fuel-based so that the
kernel can evaluate it (`fuel ≥ n` suffices). -/
def log2fuel : Nat → Nat → Nat
  | 0, _ => 0
  | fuel + 1, n => if 2 ≤ n then log2fuel fuel (n / 2) + 1 else 0

/-- `2 ^ e` for an integer exponent, kernel-evaluable. -/
def pow2z (e : Int) : ℚ :=
  if 0 ≤ e then ((2 ^ e.toNat : Nat) : ℚ) else (((2 ^ (-e).toNat : Nat) : ℚ))⁻¹

/-- Round a rational to the nearest integer, ties to even. -/
def rhe (x : ℚ) : Int :=
  if x - (⌊x⌋ : ℚ) < 1/2 then ⌊x⌋
  else if 1/2 < x - (⌊x⌋ : ℚ) then ⌊x⌋ + 1
  else if ⌊x⌋ % 2 = 0 then ⌊x⌋ else ⌊x⌋ + 1

/-- The binary exponent of a positive rational: the unique `e` with
`2 ^ e ≤ q < 2 ^ (e + 1)`. -/
def qExp (q : ℚ) : Int :=
  if 1 ≤ q then (log2fuel ⌊q⌋.toNat ⌊q⌋.toNat : Int)
  else if q * pow2z (log2fuel ⌊q⁻¹⌋.toNat ⌊q⁻¹⌋.toNat : Int) = 1 then
    -(log2fuel ⌊q⁻¹⌋.toNat ⌊q⁻¹⌋.toNat : Int)
  else -(log2fuel ⌊q⁻¹⌋.toNat ⌊q⁻¹⌋.toNat : Int) - 1

/-- Round a positive rational to 53 significant bits, ties to even:
scale into `[2^52, 2^53)`, round to an integer, scale back. -/
def roundDpos (q : ℚ) : ℚ :=
  ((rhe (q * pow2z (52 - qExp q)) : Int) : ℚ) * pow2z (qExp q - 52)

/-- Round any rational to the nearest binary64 value (no
overflow/subnormal range is ever reached by the animation arithmetic). -/
def roundD (q : ℚ) : ℚ :=
  if q < 0 then -roundDpos (-q) else if q = 0 then 0 else roundDpos q

/-- binary64 `+`: exact sum, then one correct rounding. -/
def fadd (a b : ℚ) : ℚ := roundD (a + b)

/-- binary64 `-`. -/
def fsub (a b : ℚ) : ℚ := roundD (a - b)

/-- binary64 `*`. -/
def fmul (a b : ℚ) : ℚ := roundD (a * b)

/-- binary64 `/`. -/
def fdiv (a b : ℚ) : ℚ := roundD (a / b)

/-- The binary64 value of the source literal `0.4`
(`0.75` and `0.25` are exactly representable; `0.4` is not). -/
def lit04 : ℚ := roundD (2/5)

/-! ## The sunrise animation (`sunrise_animation`)

The source computes, for `step` in `range(200)`, `progress = step / steps`
and a colour by two-segment linear interpolation in binary64 floats,
truncating each channel with Python `int(…)`.  The embedding keeps the
source's expressions and their evaluation order, with every float
operation modelled by the exact-op-then-round functions above. -/

/-- Python `int(float)`: truncation toward zero of the float's exact
rational value. -/
def pyTrunc (q : ℚ) : Int := if q < 0 then -⌊-q⌋ else ⌊q⌋

/-- The colour computed by one iteration of the animation loop as a
function of the binary64 `progress` value: the body of
`sunrise_animation`'s `for` loop, lines 138–152 of `alarm_system.py`,
operation by operation. -/
def sunriseColor (progress : ℚ) : Int × Int × Int :=
  if progress < 3/4 then
    -- First 15 minutes: ramp from (3, 0, 0) towards (18, 5, 0)
    let ramp15min := fdiv progress (3/4)
    (pyTrunc (fadd 3 (fmul 15 ramp15min)),
     pyTrunc (fadd 0 (fmul 5 ramp15min)),
     0)
  else
    -- Last 5 minutes: ramp towards warm white (254, 255, 236) at 40%
    let rampProgress := fdiv (fsub progress (3/4)) (1/4)
    (pyTrunc (fadd 18 (fmul (fsub (fmul 254 lit04) 18) rampProgress)),
     pyTrunc (fadd 5 (fmul (fsub (fmul 255 lit04) 5) rampProgress)),
     pyTrunc (fadd 0 (fmul (fmul 236 lit04) rampProgress)))

/-- The colour flushed at step `step` of the loop:
`progress = step / steps` (binary64 division of the ints) with
`steps = 200`. -/
def stepColor (step : Nat) : Int × Int × Int := sunriseColor (fdiv (step : ℚ) 200)

/-- The frame set after the loop
(`Color(int(254*0.4), int(255*0.4), int(236*0.4))`). -/
def holdColor : Int × Int × Int :=
  (pyTrunc (254 * (2/5)), pyTrunc (255 * (2/5)), pyTrunc (236 * (2/5)))

/-- The strip contents: `none` when cleared (`clear_leds`), `some c` when
every pixel was last set to colour `c` and flushed (every flush in the
animation and hold paths writes one colour to the whole strip). -/
abbrev Strip := Option (Int × Int × Int)

/-- The system modes of the state machine (`STATE_IDLE`, …). -/
inductive Mode
  | idle
  | buttonHeld
  | setup
  | alarm
  deriving Repr, DecidableEq

/-- The `for step in range(steps)` loop of `sunrise_animation`, returning
the list of colours flushed to the strip, in order.  The body breaks when
`alarm_active` is false and otherwise flushes `stepColor step`; it contains
no assignment to `alarm_active` and no read of the button, so the flag is
threaded through unchanged.  `buttonPressed` records, for each step index,
whether the physical button is down while that step runs; the loop body
never samples it, exactly as the source's body never reads the GPIO line
(`handle_alarm_button`, the only place that stops the alarm, runs in
`main`'s loop, which is blocked for the whole duration of this call). -/
def sunriseLoop (buttonPressed : Nat → Bool) (alarmActive : Bool) (step : Nat) :
    List (Int × Int × Int) :=
  if h : step < 200 then
    if alarmActive then stepColor step :: sunriseLoop buttonPressed alarmActive (step + 1)
    else []
  else []
termination_by 200 - step

/-- Result of one pass through `main`'s alarm branch (lines 390–396):
`current_state = STATE_ALARM; sunrise_animation(); clear_leds();
current_state = STATE_IDLE`. -/
structure EpisodeResult where
  /-- every full-strip colour flushed during the episode, in order -/
  frames : List (Int × Int × Int)
  /-- the strip contents when `main` resumes its loop -/
  stripAfterReturn : Strip
  /-- the mode when `main` resumes its loop -/
  modeAfter : Mode
  deriving Repr, DecidableEq

/-- `main`'s alarm episode: `sunrise_animation` sets `alarm_active = True`,
runs the loop, flushes the hold frame, sets `alarm_active = False` and
returns; `main` then calls `clear_leds()` and sets the state back to idle.
The button schedule is passed through to the loop (which ignores it, as
the source does). -/
def mainAlarmEpisode (buttonPressed : Nat → Bool) : EpisodeResult :=
  { frames := sunriseLoop buttonPressed true 0 ++ [holdColor],
    stripAfterReturn := none,
    modeAfter := Mode.idle }

/-! ## `main`'s polling loop, viewed as a timed tick system

One idle iteration of `main`'s `while True` loop costs one poll tick
(`time.sleep(0.05)`, 50 ms).  When `check_alarm()` is true and
`alarm_active` is false, the loop blocks inside `sunrise_animation()` for
1200 s = 24000 poll ticks, then clears and `continue`s (skipping the
sleep).  A scheduled occurrence makes the evaluator true for one wall
minute = 1200 consecutive ticks. -/

/-- State of `main`'s loop between iterations: current tick, the
`alarm_active` flag, and how many times the idle-to-alarm transition has
fired so far. -/
structure PollState where
  now : Nat
  alarmActive : Bool
  fired : Nat
  deriving Repr, DecidableEq

/-- One iteration of `main`'s loop in idle mode, with the button up:
line 390's gate `if check_alarm() and not alarm_active` either starts an
alarm episode (which blocks for 24000 ticks and returns with
`alarm_active = False`) or falls through to the 50 ms sleep. -/
def pollStep (trigger : Nat → Bool) (s : PollState) : PollState :=
  if trigger s.now = true ∧ s.alarmActive = false then
    { now := s.now + 24000, alarmActive := false, fired := s.fired + 1 }
  else { s with now := s.now + 1 }

/-- `n` iterations of `main`'s loop. -/
def pollRun (trigger : Nat → Bool) : Nat → PollState → PollState
  | 0, s => s
  | n + 1, s => pollRun trigger n (pollStep trigger s)

/-! ## Disable action and idle button handling -/

/-- `disable_alarm`: re-load the stored settings, set `enabled` to false,
write the record back (the `time` key is not touched). -/
def disableAlarm (stored : Settings) : Settings := { stored with enabled := false }

/-- Outcome of `handle_idle_button` for a press of a given total duration:
the inner `while` fires the disable action the moment the held duration
reaches `DISABLE_PRESS_TIME = 5.0` s; any press released before that
enters setup. -/
inductive IdleOutcome
  | disable
  | setup
  deriving Repr, DecidableEq

/-- Classification of an idle-mode press by its hold duration (seconds,
exact rationals): `press_duration >= DISABLE_PRESS_TIME` fires the
disable action; otherwise release leads to `setup_alarm()`. -/
def idleOutcome (holdDuration : ℚ) : IdleOutcome :=
  if 5 ≤ holdDuration then IdleOutcome.disable else IdleOutcome.setup

/-! ## Spec-side definitions (for refinement-style claims)

These two definitions follow the specification's words, not the source;
each is compared against the source-derived definitions in the theorems
below. -/

/-- Spec-side: "the one hour:minute that is 20 minutes before the stored
time — minute underflow borrows an hour and hour underflow wraps 1 to 12"
— as an instant of the day `(hour-of-day, minute)`, AM-only
(`12:xx AM` is hour-of-day 0). -/
def triggerInstantSpec (hour minute : Nat) : Nat × Nat :=
  let tm := if minute < 20 then minute + 40 else minute - 20
  let th := if minute < 20 then (if hour - 1 < 1 then 12 else hour - 1) else hour
  (if th = 12 then 0 else th, tm)

/-- Spec-side: "ramps linearly `a` to `b`" as a function of a normalized
ramp position `t ∈ [0, 1]`. -/
def lerp (a b t : ℚ) : ℚ := a + (b - a) * t

/-- Spec-side: the claimed colour at loop step `step` — the floor of the
exact linear interpolation of the stated segment endpoints at progress
`step / steps`, with exact rational arithmetic throughout. -/
def idealStepColor (step : Nat) : Int × Int × Int :=
  let p : ℚ := (step : ℚ) / 200
  if p < 3/4 then
    (⌊lerp 3 18 (p / (3/4))⌋, ⌊lerp 0 5 (p / (3/4))⌋, 0)
  else
    (⌊lerp 18 (254 * (2/5)) ((p - 3/4) / (1/4))⌋,
     ⌊lerp 5 (255 * (2/5)) ((p - 3/4) / (1/4))⌋,
     ⌊lerp 0 (236 * (2/5)) ((p - 3/4) / (1/4))⌋)

/-! ## Helper lemmas about the string machinery -/

/-- `f"{k:02d}"` of a number below 100 is its two decimal digits. -/
theorem format02d_two_digit : ∀ k : Nat, k < 100 →
    format02d (k : Int) = [Nat.digitChar (k / 10), Nat.digitChar (k % 10)] := by decide

/-- Decimal digit characters determine the digit. -/
theorem digitChar_inj : ∀ a : Nat, a < 10 → ∀ b : Nat, b < 10 →
    Nat.digitChar a = Nat.digitChar b → a = b := by decide

/-- `check_alarm`'s parser inverts `save_alarm`'s formatting for every
storable time (hour 1–12, minute 0–59). -/
theorem parse_roundtrip : ∀ hour : Nat, hour < 13 → ∀ minute : Nat, minute < 60 →
    parseAlarmTime (alarmTimeString hour minute) = some ((hour : Int), (minute : Int)) := by
  decide

/-- Two clock renderings `"HH:MM xM"` (with in-range components, the right
one marked AM) agree exactly when their components agree. -/
theorem render_inj (hh mm th tm : Nat) (p : Char)
    (hhh : 1 ≤ hh) (hhh2 : hh ≤ 12) (hmm : mm < 60)
    (hth : 1 ≤ th) (hth2 : th ≤ 12) (htm : tm < 60) :
    (format02d (hh : Int) ++ ':' :: (format02d (mm : Int) ++ [' ', p, 'M'])
      = format02d (th : Int) ++ ':' :: (format02d (tm : Int) ++ [' ', 'A', 'M']))
    ↔ (hh = th ∧ mm = tm ∧ p = 'A') := by
  rw [format02d_two_digit hh (by omega), format02d_two_digit mm (by omega),
      format02d_two_digit th (by omega), format02d_two_digit tm (by omega)]
  constructor
  · intro h
    simp only [List.cons_append, List.nil_append, List.cons.injEq, eq_self_iff_true,
      true_and, and_true] at h
    obtain ⟨ha, hb, hc, hd, hpp⟩ := h
    have e1 := digitChar_inj _ (by omega) _ (by omega) ha
    have e2 := digitChar_inj _ (by omega) _ (by omega) hb
    have e3 := digitChar_inj _ (by omega) _ (by omega) hc
    have e4 := digitChar_inj _ (by omega) _ (by omega) hd
    exact ⟨by omega, by omega, hpp⟩
  · rintro ⟨rfl, rfl, rfl⟩
    rfl

/-- Reversing a list that ends in `' '`, `c`, `'M'`. -/
theorem reverse_shape (xs : List Char) (c : Char) :
    (xs ++ [' ', c, 'M']).reverse = 'M' :: c :: ' ' :: xs.reverse := by
  simp [List.reverse_append]

/-! ## Claim theorems: the schedule evaluator -/

/-- Claim C2: with enabled settings storing hour 1–12 and a minute in
{0, 5, …, 55}, `check_alarm` is true at exactly the one instant of the day
that is 20 minutes before the stored time (minute underflow borrows an
hour, hour underflow wraps 1 to 12, rendered AM-only), and false at every
other minute of the day. -/
theorem check_alarm_trigger_iff (hour minute h24 m : Nat)
    (hh1 : 1 ≤ hour) (hh2 : hour ≤ 12) (hm1 : minute ≤ 55) (hm5 : minute % 5 = 0)
    (hd : h24 < 24) (hmm : m < 60) :
    checkAlarm ⟨true, some (alarmTimeString hour minute)⟩ h24 m = true ↔
      (h24, m) = triggerInstantSpec hour minute := by
  have hts : alarmTimeString hour minute ≠ [] := by
    rw [alarmTimeString, format02d_two_digit hour (by omega)]
    simp
  have hp := parse_roundtrip hour (by omega) minute (by omega)
  simp only [checkAlarm, hp, hts, Bool.not_true, Bool.false_eq_true, if_false,
    ite_false, decide_eq_true_eq]
  have htup :
      (if (minute : Int) - 20 < 0 then
        (if (hour : Int) - 1 < 1 then 12 else (hour : Int) - 1, (minute : Int) - 20 + 60)
      else ((hour : Int), (minute : Int) - 20))
      = (((if minute < 20 then (if hour - 1 < 1 then 12 else hour - 1) else hour : Nat) : Int),
         ((if minute < 20 then minute + 40 else minute - 20 : Nat) : Int)) := by
    split_ifs <;> simp only [Prod.mk.injEq] <;> constructor <;> first | exact True.intro | omega
  rw [htup]
  have hthb1 : 1 ≤ (if minute < 20 then (if hour - 1 < 1 then 12 else hour - 1) else hour) := by
    split_ifs <;> omega
  have hthb2 : (if minute < 20 then (if hour - 1 < 1 then 12 else hour - 1) else hour) ≤ 12 := by
    split_ifs <;> omega
  have htmb : (if minute < 20 then minute + 40 else minute - 20) < 60 := by
    split_ifs <;> omega
  have hhb1 : 1 ≤ hour12 h24 := by unfold hour12; split_ifs <;> omega
  have hhb2 : hour12 h24 ≤ 12 := by unfold hour12; split_ifs <;> omega
  rw [strftimeIMp, render_inj (hour12 h24) m _ _ _ hhb1 hhb2 hmm hthb1 hthb2 htmb]
  have hpA : ((if h24 < 12 then 'A' else 'P') = 'A') ↔ h24 < 12 := by
    by_cases h : h24 < 12
    · rw [if_pos h]; exact iff_of_true rfl h
    · rw [if_neg h]; exact iff_of_false (by decide) h
  rw [hpA]
  simp only [triggerInstantSpec, Prod.mk.injEq]
  unfold hour12
  split_ifs <;> omega

/-- Claim C2, witnessed: a 07:00 alarm triggers at 06:40 AM. -/
theorem check_alarm_trigger_iff_witness :
    checkAlarm ⟨true, some (alarmTimeString 7 0)⟩ 6 40 = true :=
  (check_alarm_trigger_iff 7 0 6 40 (by decide) (by decide) (by decide) (by decide)
    (by decide) (by decide)).mpr (by decide)

/-- Claim C5: `check_alarm` returns false, for every current instant,
whenever the settings are disabled, the stored time is unset, or the
stored time string is unparseable (the `try`/`except` turns any parse
failure into false, without raising). -/
theorem check_alarm_disabled_or_unset (st : Settings) (h24 m : Nat)
    (h : st.enabled = false ∨ st.time = none ∨
      ∃ s, st.time = some s ∧ parseAlarmTime s = none) :
    checkAlarm st h24 m = false := by
  obtain ⟨e, t⟩ := st
  rcases h with h | h | ⟨s, hs, hp⟩
  · cases e
    · simp [checkAlarm]
    · simp at h
  · cases t with
    | none => simp [checkAlarm]
    | some s => simp at h
  · have ht : t = some s := hs
    subst ht
    cases e
    · simp [checkAlarm]
    · by_cases hnil : s = []
      · subst hnil; simp [checkAlarm]
      · simp [checkAlarm, hnil, hp]

/-- Claim C5, witnessed: an unparseable stored time yields false. -/
theorem check_alarm_disabled_or_unset_witness :
    checkAlarm ⟨true, some (String.toList "banana")⟩ 6 40 = false :=
  check_alarm_disabled_or_unset ⟨true, some (String.toList "banana")⟩ 6 40
    (Or.inr (Or.inr ⟨String.toList "banana", rfl, by decide⟩))

/-- Claim C9: for every stored settings value, `check_alarm` is false at
every PM instant, because the computed trigger string always ends in
`" AM"` while the current time is rendered with its actual designator;
in particular an alarm stored in 12:00–12:19, whose instant 20 minutes
earlier is a PM wall-clock time, never triggers at that actual instant. -/
theorem check_alarm_pm_false (st : Settings) (h24 m : Nat)
    (hlo : 12 ≤ h24) (hhi : h24 < 24) :
    checkAlarm st h24 m = false := by
  obtain ⟨e, t⟩ := st
  cases e
  · simp [checkAlarm]
  · cases t with
    | none => simp [checkAlarm]
    | some s =>
      by_cases hnil : s = []
      · subst hnil; simp [checkAlarm]
      · cases hp : parseAlarmTime s with
        | none => simp [checkAlarm, hnil, hp]
        | some pr =>
          obtain ⟨ah, am⟩ := pr
          have hp12 : ¬ h24 < 12 := by omega
          have h1 : strftimeIMp h24 m =
              (format02d (hour12 h24 : Int) ++ ':' :: format02d (m : Int)) ++
                [' ', 'P', 'M'] := by
            simp [strftimeIMp, hp12]
          simp only [checkAlarm, hnil, hp, Bool.not_true, Bool.false_eq_true, if_false,
            decide_eq_false_iff_not, ite_false]
          intro heq
          have h2 : ∀ u v : List Char,
              u ++ ':' :: (v ++ ([' ', 'A', 'M'] : List Char)) =
                (u ++ ':' :: v) ++ [' ', 'A', 'M'] := by
            intro u v; simp
          rw [h2, h1] at heq
          have h3 := congrArg List.reverse heq
          rw [reverse_shape, reverse_shape] at h3
          simp at h3

/-- Claim C9, witnessed: a stored 12:10 alarm does not trigger at
11:50 PM, the instant that is really 20 minutes before 12:10 AM. -/
theorem check_alarm_pm_false_witness :
    checkAlarm ⟨true, some (alarmTimeString 12 10)⟩ 23 50 = false :=
  check_alarm_pm_false ⟨true, some (alarmTimeString 12 10)⟩ 23 50
    (by decide) (by decide)

/-! ## Helper lemmas about truncation and binary64 rounding -/

/-- Python `int(…)` agrees with the floor on nonnegative arguments. -/
theorem pyTrunc_of_nonneg (q : ℚ) (h : 0 ≤ q) : pyTrunc q = ⌊q⌋ :=
  if_neg (not_lt.mpr h)

/-- Truncation is monotone on nonnegative arguments. -/
theorem pyTrunc_mono (a b : ℚ) (ha : 0 ≤ a) (hab : a ≤ b) : pyTrunc a ≤ pyTrunc b := by
  rw [pyTrunc_of_nonneg a ha, pyTrunc_of_nonneg b (ha.trans hab)]
  exact Int.floor_le_floor hab

/-- `log2fuel` computes the floor of the binary logarithm when given
enough fuel. -/
theorem log2fuel_spec : ∀ fuel n : Nat, 1 ≤ n → n ≤ fuel →
    2 ^ log2fuel fuel n ≤ n ∧ n < 2 ^ (log2fuel fuel n + 1) := by
  intro fuel
  induction fuel with
  | zero => intro n h1 h2; omega
  | succ k ih =>
    intro n h1 h2
    rw [log2fuel]
    by_cases hn : 2 ≤ n
    · rw [if_pos hn]
      have hd1 : 1 ≤ n / 2 := by omega
      have hd2 : n / 2 ≤ k := by omega
      obtain ⟨ha, hb⟩ := ih (n / 2) hd1 hd2
      constructor
      · calc 2 ^ (log2fuel k (n / 2) + 1) = 2 * 2 ^ (log2fuel k (n / 2)) := by ring
          _ ≤ 2 * (n / 2) := by omega
          _ ≤ n := by omega
      · have h3 : n < 2 * 2 ^ (log2fuel k (n / 2) + 1) := by omega
        calc n < 2 * 2 ^ (log2fuel k (n / 2) + 1) := h3
          _ = 2 ^ (log2fuel k (n / 2) + 1 + 1) := by ring
    · rw [if_neg hn]
      simp only [pow_zero, pow_one]
      omega

/-- `pow2z` is the integer power of two. -/
theorem pow2z_eq : ∀ e : Int, pow2z e = (2 : ℚ) ^ e := by
  intro e
  unfold pow2z
  split_ifs with h
  · obtain ⟨n, rfl⟩ : ∃ n : ℕ, e = n := ⟨e.toNat, by omega⟩
    simp [zpow_natCast]
  · obtain ⟨n, rfl⟩ : ∃ n : ℕ, e = -(n : ℤ) := ⟨(-e).toNat, by omega⟩
    simp [zpow_neg, zpow_natCast]

/-- Round-to-nearest of a rational is at least its floor. -/
theorem rhe_ge_floor (x : ℚ) : ⌊x⌋ ≤ rhe x := by
  unfold rhe
  split_ifs <;> omega

/-- Round-to-nearest of a rational is at most its floor plus one. -/
theorem rhe_le_floor_add_one (x : ℚ) : rhe x ≤ ⌊x⌋ + 1 := by
  unfold rhe
  split_ifs <;> omega

/-- Round-to-nearest (ties to even) is monotone. -/
theorem rhe_mono (x y : ℚ) (hxy : x ≤ y) : rhe x ≤ rhe y := by
  rcases lt_or_eq_of_le (Int.floor_le_floor hxy) with hf | hf
  · calc rhe x ≤ ⌊x⌋ + 1 := rhe_le_floor_add_one x
      _ ≤ ⌊y⌋ := by omega
      _ ≤ rhe y := rhe_ge_floor y
  · by_cases hx2 : x - (⌊x⌋ : ℚ) < 1/2
    · have h1 : rhe x = ⌊x⌋ := by unfold rhe; rw [if_pos hx2]
      rw [h1, hf]
      exact rhe_ge_floor y
    · by_cases hy2 : 1/2 < y - (⌊y⌋ : ℚ)
      · have h1 : rhe y = ⌊y⌋ + 1 := by
          unfold rhe
          rw [if_neg (by rw [← hf] at hy2 ⊢; linarith), if_pos hy2]
        rw [h1, ← hf]
        exact rhe_le_floor_add_one x
      · have hxy2 : x = y := by
          have h1 : (1:ℚ)/2 ≤ x - (⌊x⌋ : ℚ) := not_lt.mp hx2
          have h2 : y - (⌊y⌋ : ℚ) ≤ 1/2 := not_lt.mp hy2
          rw [← hf] at h2
          linarith
        exact le_of_eq (congrArg rhe hxy2)

/-- `qExp q` is the binary exponent of a positive rational `q`. -/
theorem qExp_spec (q : ℚ) (hq : 0 < q) :
    (2 : ℚ) ^ qExp q ≤ q ∧ q < (2 : ℚ) ^ (qExp q + 1) := by
  unfold qExp
  split_ifs with h1 h2
  · -- 1 ≤ q
    set L := log2fuel ⌊q⌋.toNat ⌊q⌋.toNat with hL
    have hfl : (1 : ℤ) ≤ ⌊q⌋ := Int.le_floor.mpr (by exact_mod_cast h1)
    have hn1 : 1 ≤ ⌊q⌋.toNat := by omega
    obtain ⟨ha, hb⟩ := log2fuel_spec ⌊q⌋.toNat ⌊q⌋.toNat hn1 le_rfl
    have hcastfl : ((⌊q⌋.toNat : ℕ) : ℚ) = ((⌊q⌋ : ℤ) : ℚ) := by
      have h := Int.toNat_of_nonneg (by omega : (0:ℤ) ≤ ⌊q⌋)
      exact_mod_cast congrArg (fun z : ℤ => (z : ℚ)) h
    constructor
    · rw [zpow_natCast]
      have hc : ((2 ^ L : ℕ) : ℚ) ≤ ((⌊q⌋.toNat : ℕ) : ℚ) := by exact_mod_cast ha
      push_cast at hc
      calc (2 : ℚ) ^ L ≤ ((⌊q⌋.toNat : ℕ) : ℚ) := hc
        _ = ((⌊q⌋ : ℤ) : ℚ) := hcastfl
        _ ≤ q := Int.floor_le q
    · have hq1 : q < ((⌊q⌋ : ℤ) : ℚ) + 1 := Int.lt_floor_add_one q
      have hc : ((⌊q⌋.toNat : ℕ) : ℚ) + 1 ≤ ((2 ^ (L + 1) : ℕ) : ℚ) := by exact_mod_cast hb
      rw [show (L : ℤ) + 1 = ((L + 1 : ℕ) : ℤ) by push_cast; ring, zpow_natCast]
      push_cast at hc ⊢
      rw [hcastfl] at hc
      linarith
  · -- q < 1, and q is exactly a power of two
    set F := log2fuel ⌊q⁻¹⌋.toNat ⌊q⁻¹⌋.toNat with hF
    rw [pow2z_eq] at h2
    have hqe : q = ((2 : ℚ) ^ (F : ℤ))⁻¹ := eq_inv_of_mul_eq_one_left h2
    rw [← zpow_neg] at hqe
    refine ⟨le_of_eq hqe.symm, ?_⟩
    rw [hqe]
    exact zpow_lt_zpow_right₀ one_lt_two (by omega)
  · -- q < 1, strictly between powers of two
    set F := log2fuel ⌊q⁻¹⌋.toNat ⌊q⁻¹⌋.toNat with hF
    have hlt1 : q < 1 := not_le.mp h1
    have hinv1 : 1 < q⁻¹ := (one_lt_inv₀ hq).mpr hlt1
    have hfl : (1 : ℤ) ≤ ⌊q⁻¹⌋ := Int.le_floor.mpr (by exact_mod_cast le_of_lt hinv1)
    have hm1 : 1 ≤ ⌊q⁻¹⌋.toNat := by omega
    obtain ⟨ha, hb⟩ := log2fuel_spec ⌊q⁻¹⌋.toNat ⌊q⁻¹⌋.toNat hm1 le_rfl
    have hcastfl : ((⌊q⁻¹⌋.toNat : ℕ) : ℚ) = ((⌊q⁻¹⌋ : ℤ) : ℚ) := by
      have h := Int.toNat_of_nonneg (by omega : (0:ℤ) ≤ ⌊q⁻¹⌋)
      exact_mod_cast congrArg (fun z : ℤ => (z : ℚ)) h
    have hA : (2 : ℚ) ^ (F : ℤ) ≤ q⁻¹ := by
      rw [zpow_natCast]
      have hc : ((2 ^ F : ℕ) : ℚ) ≤ ((⌊q⁻¹⌋.toNat : ℕ) : ℚ) := by exact_mod_cast ha
      push_cast at hc
      calc (2 : ℚ) ^ F ≤ ((⌊q⁻¹⌋.toNat : ℕ) : ℚ) := hc
        _ = ((⌊q⁻¹⌋ : ℤ) : ℚ) := hcastfl
        _ ≤ q⁻¹ := Int.floor_le _
    have hB : q⁻¹ < (2 : ℚ) ^ ((F : ℤ) + 1) := by
      have hq1 : q⁻¹ < ((⌊q⁻¹⌋ : ℤ) : ℚ) + 1 := Int.lt_floor_add_one _
      have hc : ((⌊q⁻¹⌋.toNat : ℕ) : ℚ) + 1 ≤ ((2 ^ (F + 1) : ℕ) : ℚ) := by exact_mod_cast hb
      rw [show (F : ℤ) + 1 = ((F + 1 : ℕ) : ℤ) by push_cast; ring, zpow_natCast]
      push_cast at hc ⊢
      rw [hcastfl] at hc
      linarith
    have hup : q ≤ (2 : ℚ) ^ (-(F : ℤ)) := by
      have h := inv_anti₀ (zpow_pos (by norm_num) _) hA
      rw [inv_inv, ← zpow_neg] at h
      exact h
    have hlo : (2 : ℚ) ^ (-((F : ℤ) + 1)) < q := by
      have h := inv_strictAnti₀ (inv_pos.mpr hq) hB
      rw [inv_inv, ← zpow_neg] at h
      exact h
    constructor
    · rw [show -(F : ℤ) - 1 = -((F : ℤ) + 1) by ring]
      exact le_of_lt hlo
    · rw [show -(F : ℤ) - 1 + 1 = -(F : ℤ) by ring]
      refine lt_of_le_of_ne hup ?_
      intro hcon
      apply h2
      rw [pow2z_eq, hcon, ← zpow_add₀ (by norm_num : (2:ℚ) ≠ 0),
        show -(F : ℤ) + F = 0 by ring, zpow_zero]

/-- Merging powers of two. -/
theorem zpow_split (a b : ℤ) : (2 : ℚ) ^ a * (2 : ℚ) ^ b = (2 : ℚ) ^ (a + b) := by
  rw [← zpow_add₀ (by norm_num : (2:ℚ) ≠ 0)]

/-- `2^52` as an integer literal. -/
theorem cast_pow52 : ((4503599627370496 : ℤ) : ℚ) = (2:ℚ) ^ (52:ℤ) := by
  norm_num

/-- `2^53` as an integer literal. -/
theorem cast_pow53 : ((9007199254740992 : ℤ) : ℚ) = (2:ℚ) ^ (53:ℤ) := by
  norm_num

/-- Scaling a positive rational by `2^(52 - exponent)` lands in
`[2^52, 2^53)`. -/
theorem scaled_bounds (q : ℚ) (hq : 0 < q) :
    (2 : ℚ) ^ (52 : ℤ) ≤ q * (2 : ℚ) ^ (52 - qExp q) ∧
      q * (2 : ℚ) ^ (52 - qExp q) < (2 : ℚ) ^ (53 : ℤ) := by
  obtain ⟨h1, h2⟩ := qExp_spec q hq
  have hpos : (0 : ℚ) < (2 : ℚ) ^ (52 - qExp q) := zpow_pos (by norm_num) _
  have e1 : (2 : ℚ) ^ qExp q * (2 : ℚ) ^ (52 - qExp q) = (2 : ℚ) ^ (52 : ℤ) := by
    rw [zpow_split, show qExp q + (52 - qExp q) = (52:ℤ) by ring]
  have e2 : (2 : ℚ) ^ (qExp q + 1) * (2 : ℚ) ^ (52 - qExp q) = (2 : ℚ) ^ (53 : ℤ) := by
    rw [zpow_split, show qExp q + 1 + (52 - qExp q) = (53:ℤ) by ring]
  constructor
  · rw [← e1]
    exact mul_le_mul_of_nonneg_right h1 (le_of_lt hpos)
  · rw [← e2]
    exact mul_lt_mul_of_pos_right h2 hpos

/-- `roundDpos` with `pow2z` unfolded to powers of two. -/
theorem roundDpos_eq (q : ℚ) :
    roundDpos q = ((rhe (q * (2 : ℚ) ^ (52 - qExp q)) : ℤ) : ℚ) * (2 : ℚ) ^ (qExp q - 52) := by
  rw [roundDpos, pow2z_eq, pow2z_eq]

/-- Rounding a positive rational keeps it at or above its power-of-two
lower bound. -/
theorem roundDpos_lb (q : ℚ) (hq : 0 < q) : (2 : ℚ) ^ qExp q ≤ roundDpos q := by
  obtain ⟨h1, h2⟩ := scaled_bounds q hq
  rw [roundDpos_eq]
  have hfl : (4503599627370496 : ℤ) ≤ ⌊q * (2 : ℚ) ^ (52 - qExp q)⌋ := by
    rw [Int.le_floor, cast_pow52]
    exact h1
  have hr : (4503599627370496 : ℤ) ≤ rhe (q * (2 : ℚ) ^ (52 - qExp q)) :=
    le_trans hfl (rhe_ge_floor _)
  have hrq : (2 : ℚ) ^ (52:ℤ) ≤ ((rhe (q * (2 : ℚ) ^ (52 - qExp q)) : ℤ) : ℚ) := by
    rw [← cast_pow52]
    exact_mod_cast hr
  have e1 : (2 : ℚ) ^ (52:ℤ) * (2 : ℚ) ^ (qExp q - 52) = (2 : ℚ) ^ qExp q := by
    rw [zpow_split, show (52:ℤ) + (qExp q - 52) = qExp q by ring]
  rw [← e1]
  exact mul_le_mul_of_nonneg_right hrq (le_of_lt (zpow_pos (by norm_num) _))

/-- Rounding a positive rational keeps it at or below its power-of-two
upper bound. -/
theorem roundDpos_ub (q : ℚ) (hq : 0 < q) : roundDpos q ≤ (2 : ℚ) ^ (qExp q + 1) := by
  obtain ⟨h1, h2⟩ := scaled_bounds q hq
  rw [roundDpos_eq]
  have hfl : ⌊q * (2 : ℚ) ^ (52 - qExp q)⌋ < (9007199254740992 : ℤ) := by
    rw [Int.floor_lt, cast_pow53]
    exact h2
  have hr : rhe (q * (2 : ℚ) ^ (52 - qExp q)) ≤ (9007199254740992 : ℤ) := by
    have h3 := rhe_le_floor_add_one (q * (2 : ℚ) ^ (52 - qExp q))
    omega
  have hrq : ((rhe (q * (2 : ℚ) ^ (52 - qExp q)) : ℤ) : ℚ) ≤ (2 : ℚ) ^ (53:ℤ) := by
    rw [← cast_pow53]
    exact_mod_cast hr
  have e1 : (2 : ℚ) ^ (53:ℤ) * (2 : ℚ) ^ (qExp q - 52) = (2 : ℚ) ^ (qExp q + 1) := by
    rw [zpow_split, show (53:ℤ) + (qExp q - 52) = qExp q + 1 by ring]
  rw [← e1]
  exact mul_le_mul_of_nonneg_right hrq (le_of_lt (zpow_pos (by norm_num) _))

/-- Rounding a positive rational gives a positive result. -/
theorem roundDpos_pos (q : ℚ) (hq : 0 < q) : 0 < roundDpos q :=
  lt_of_lt_of_le (zpow_pos (by norm_num) _) (roundDpos_lb q hq)

/-- Correct rounding is monotone on positives: within one binade it
follows `rhe`'s monotonicity, across binades it follows the power-of-two
bounds. -/
theorem roundDpos_mono (x y : ℚ) (hx : 0 < x) (hxy : x ≤ y) : roundDpos x ≤ roundDpos y := by
  have hy : 0 < y := lt_of_lt_of_le hx hxy
  obtain ⟨hx1, hx2⟩ := qExp_spec x hx
  obtain ⟨hy1, hy2⟩ := qExp_spec y hy
  have hee : qExp x ≤ qExp y := by
    by_contra hcon
    push_neg at hcon
    have h1 : (2 : ℚ) ^ (qExp y + 1) ≤ (2 : ℚ) ^ qExp x :=
      zpow_le_zpow_right₀ one_le_two (by omega)
    linarith
  rcases lt_or_eq_of_le hee with hlt | heq
  · calc roundDpos x ≤ (2 : ℚ) ^ (qExp x + 1) := roundDpos_ub x hx
      _ ≤ (2 : ℚ) ^ qExp y := zpow_le_zpow_right₀ one_le_two (by omega)
      _ ≤ roundDpos y := roundDpos_lb y hy
  · rw [roundDpos_eq, roundDpos_eq, heq]
    have hs : x * (2 : ℚ) ^ (52 - qExp y) ≤ y * (2 : ℚ) ^ (52 - qExp y) :=
      mul_le_mul_of_nonneg_right hxy (le_of_lt (zpow_pos (by norm_num) _))
    have hr : rhe (x * (2 : ℚ) ^ (52 - qExp y)) ≤ rhe (y * (2 : ℚ) ^ (52 - qExp y)) :=
      rhe_mono _ _ hs
    exact mul_le_mul_of_nonneg_right (by exact_mod_cast hr) (le_of_lt (zpow_pos (by norm_num) _))

/-- binary64 rounding preserves nonnegativity. -/
theorem roundD_nonneg (x : ℚ) (hx : 0 ≤ x) : 0 ≤ roundD x := by
  rw [roundD, if_neg (not_lt.mpr hx)]
  rcases eq_or_lt_of_le hx with h0 | h0
  · rw [if_pos h0.symm]
  · rw [if_neg (by exact fun hcon => absurd hcon.symm (ne_of_lt h0))]
    exact le_of_lt (roundDpos_pos x h0)

/-- binary64 rounding is monotone on nonnegative arguments. -/
theorem roundD_mono_nonneg (x y : ℚ) (hx : 0 ≤ x) (hxy : x ≤ y) : roundD x ≤ roundD y := by
  rcases eq_or_lt_of_le hx with h0 | h0
  · rw [roundD, if_neg (by rw [← h0]; exact not_lt.mpr le_rfl), if_pos h0.symm]
    exact roundD_nonneg y (le_trans hx hxy)
  · rw [roundD, roundD, if_neg (not_lt.mpr (le_of_lt h0)),
      if_neg (not_lt.mpr (le_trans (le_of_lt h0) hxy)),
      if_neg (by exact fun hcon => absurd hcon.symm (ne_of_lt h0)),
      if_neg (by exact fun hcon => absurd hcon.symm (ne_of_lt (lt_of_lt_of_le h0 hxy)))]
    exact roundDpos_mono x y h0 hxy

/-- One animation channel, `int(k + c * ramp)` in floats, is monotone in
the ramp position for nonnegative `c`, `k` and ramp. -/
theorem fstep_mono (c k x y : ℚ) (hc : 0 ≤ c) (hk : 0 ≤ k) (hx : 0 ≤ x) (hxy : x ≤ y) :
    pyTrunc (fadd k (fmul c x)) ≤ pyTrunc (fadd k (fmul c y)) := by
  have m0 : 0 ≤ c * x := mul_nonneg hc hx
  have m1 : fmul c x ≤ fmul c y :=
    roundD_mono_nonneg _ _ m0 (mul_le_mul_of_nonneg_left hxy hc)
  have m1n : 0 ≤ fmul c x := roundD_nonneg _ m0
  have a1 : fadd k (fmul c x) ≤ fadd k (fmul c y) :=
    roundD_mono_nonneg _ _ (by linarith) (by linarith)
  have a1n : 0 ≤ fadd k (fmul c x) := roundD_nonneg _ (by linarith)
  exact pyTrunc_mono _ _ a1n a1

/-! ## Claim theorems: the animation colour ramp -/

/-- Claim C6 counterexample: at step 60 — the loop's progress 0.3 — the
program's float64 evaluation flushes green 1, while the claimed floor of
the exact linear ramp gives green 2 (`5 * (0.3/0.75)` evaluates to
`1.9999999999999998` in binary64, truncating to 1). -/
theorem sunrise_segment_ideal_cx :
    stepColor 60 = (9, 1, 0) ∧ idealStepColor 60 = (9, 2, 0) ∧
    stepColor 60 ≠ idealStepColor 60 := by decide

set_option maxRecDepth 8000 in
/-- Claim C6 (amended): at every loop step the colour is the float64
evaluation of the stated linear-ramp expressions; it equals the floor of
the exact linear interpolation at every step except 30, 60 and 120,
where float truncation gives (6,0,0), (9,1,0), (14,3,0) instead of the
ideal (6,1,0), (9,2,0), (15,4,0); and at progress 1.0 the colour equals
the Segment-B endpoint (101, 102, 94) exactly. -/
theorem sunrise_segment_formulas_float (step : Nat) (h : step < 200) :
    ((step = 30 ∨ step = 60 ∨ step = 120) ∨ stepColor step = idealStepColor step) ∧
    stepColor 30 = (6, 0, 0) ∧ idealStepColor 30 = (6, 1, 0) ∧
    stepColor 60 = (9, 1, 0) ∧ idealStepColor 60 = (9, 2, 0) ∧
    stepColor 120 = (14, 3, 0) ∧ idealStepColor 120 = (15, 4, 0) ∧
    sunriseColor 1 = (101, 102, 94) := by
  have hA : ∀ s : Nat, s < 200 →
      ((s = 30 ∨ s = 60 ∨ s = 120) ∨ stepColor s = idealStepColor s) := by decide
  exact ⟨hA step h, by decide, by decide, by decide, by decide, by decide, by decide, by decide⟩

/-- Claim C6 (amended), witnessed at step 5, a step where the float and
ideal values agree. -/
theorem sunrise_segment_formulas_float_witness :
    stepColor 5 = idealStepColor 5 ∧ sunriseColor 1 = (101, 102, 94) := by
  obtain ⟨h1, h2⟩ := sunrise_segment_formulas_float 5 (by norm_num)
  exact ⟨h1.resolve_left (by decide), h2.2.2.2.2.2.2⟩

/-- Claim C7: each colour channel of the float64 animation colour is
monotonically non-decreasing across Segment A (`[0, 0.75)`) and again
across Segment B (`[0.75, 1]`) — correct rounding is monotone, so this
holds for the program's float arithmetic, not just the ideal ramp; the
Segment-A float expressions evaluated at the 0.75 boundary equal the
Segment-B start values, and the colour at 0.75 is exactly (18, 5, 0). -/
theorem sunrise_monotone (p q : ℚ) (hp : 0 ≤ p) (hpq : p ≤ q) :
    (q < 3/4 →
      (sunriseColor p).1 ≤ (sunriseColor q).1 ∧
      (sunriseColor p).2.1 ≤ (sunriseColor q).2.1 ∧
      (sunriseColor p).2.2 ≤ (sunriseColor q).2.2) ∧
    (3/4 ≤ p → q ≤ 1 →
      (sunriseColor p).1 ≤ (sunriseColor q).1 ∧
      (sunriseColor p).2.1 ≤ (sunriseColor q).2.1 ∧
      (sunriseColor p).2.2 ≤ (sunriseColor q).2.2) ∧
    (fadd 3 (fmul 15 (fdiv (3/4) (3/4))) = 18 ∧
     fadd 0 (fmul 5 (fdiv (3/4) (3/4))) = 5) ∧
    sunriseColor (3/4) = (18, 5, 0) := by
  refine ⟨?_, ?_, by decide, by decide⟩
  · intro hq
    have hpA : p < 3/4 := lt_of_le_of_lt hpq hq
    have hd0 : 0 ≤ p / (3/4) := by positivity
    have hdm : fdiv p (3/4) ≤ fdiv q (3/4) :=
      roundD_mono_nonneg _ _ hd0 (by gcongr)
    have hdn : 0 ≤ fdiv p (3/4) := roundD_nonneg _ hd0
    rw [sunriseColor, if_pos hpA, sunriseColor, if_pos hq]
    dsimp only
    exact ⟨fstep_mono 15 3 _ _ (by norm_num) (by norm_num) hdn hdm,
      fstep_mono 5 0 _ _ (by norm_num) (by norm_num) hdn hdm, le_refl 0⟩
  · intro hp34 _hq1
    have hqB : ¬ q < 3/4 := not_lt.mpr (le_trans hp34 hpq)
    have hs1 : fsub p (3/4) ≤ fsub q (3/4) :=
      roundD_mono_nonneg _ _ (by linarith) (by linarith)
    have hs1n : 0 ≤ fsub p (3/4) := roundD_nonneg _ (by linarith)
    have hs2 : fdiv (fsub p (3/4)) (1/4) ≤ fdiv (fsub q (3/4)) (1/4) :=
      roundD_mono_nonneg _ _ (div_nonneg hs1n (by norm_num)) (by gcongr)
    have hs2n : 0 ≤ fdiv (fsub p (3/4)) (1/4) :=
      roundD_nonneg _ (div_nonneg hs1n (by norm_num))
    rw [sunriseColor, if_neg (not_lt.mpr hp34), sunriseColor, if_neg hqB]
    dsimp only
    exact ⟨fstep_mono _ 18 _ _ (by decide) (by norm_num) hs2n hs2,
      fstep_mono _ 5 _ _ (by decide) (by norm_num) hs2n hs2,
      fstep_mono _ 0 _ _ (by decide) (by norm_num) hs2n hs2⟩

/-- Claim C7, witnessed inside Segment A at progress 1/4 ≤ 1/2. -/
theorem sunrise_monotone_witness :
    (sunriseColor (1/4 : ℚ)).1 ≤ (sunriseColor (1/2 : ℚ)).1 ∧
    (sunriseColor (1/4 : ℚ)).2.1 ≤ (sunriseColor (1/2 : ℚ)).2.1 ∧
    (sunriseColor (1/4 : ℚ)).2.2 ≤ (sunriseColor (1/2 : ℚ)).2.2 :=
  (sunrise_monotone (1/4) (1/2) (by norm_num) (by norm_num)).1 (by norm_num)

set_option maxRecDepth 8000 in
/-- Claim C10: at every loop step `0 ≤ step < 200` and at the post-loop
hold frame, every channel value the program computes (in float64) is an
integer in `[0, 102]` — hence in `[0, 255]`, a valid 8-bit channel for
the LED `Color` constructor. -/
theorem animation_channels_in_range (step : Nat) (h : step < 200) :
    ((0 ≤ (stepColor step).1 ∧ (stepColor step).1 ≤ 102) ∧
     (0 ≤ (stepColor step).2.1 ∧ (stepColor step).2.1 ≤ 102) ∧
     (0 ≤ (stepColor step).2.2 ∧ (stepColor step).2.2 ≤ 102)) ∧
    ((0 ≤ holdColor.1 ∧ holdColor.1 ≤ 102) ∧
     (0 ≤ holdColor.2.1 ∧ holdColor.2.1 ≤ 102) ∧
     (0 ≤ holdColor.2.2 ∧ holdColor.2.2 ≤ 102)) := by
  have hA : ∀ s : Nat, s < 200 →
      (0 ≤ (stepColor s).1 ∧ (stepColor s).1 ≤ 102) ∧
      (0 ≤ (stepColor s).2.1 ∧ (stepColor s).2.1 ≤ 102) ∧
      (0 ≤ (stepColor s).2.2 ∧ (stepColor s).2.2 ≤ 102) := by decide
  exact ⟨hA step h, by decide⟩

/-- Claim C10, witnessed at step 60 (progress 0.3). -/
theorem animation_channels_in_range_witness :
    ((0 ≤ (stepColor 60).1 ∧ (stepColor 60).1 ≤ 102) ∧
     (0 ≤ (stepColor 60).2.1 ∧ (stepColor 60).2.1 ≤ 102) ∧
     (0 ≤ (stepColor 60).2.2 ∧ (stepColor 60).2.2 ≤ 102)) ∧
    ((0 ≤ holdColor.1 ∧ holdColor.1 ≤ 102) ∧
     (0 ≤ holdColor.2.1 ∧ holdColor.2.1 ≤ 102) ∧
     (0 ≤ holdColor.2.2 ∧ holdColor.2.2 ≤ 102)) :=
  animation_channels_in_range 60 (by norm_num)

/-! ## Helper lemmas about the animation loop and the polling loop -/

/-- Starting with `alarm_active = True`, the animation loop renders one
frame for every remaining step: nothing in its body can break out early
(`alarm_active` is never written inside the call). -/
theorem sunriseLoop_length (press : Nat → Bool) :
    ∀ n step, 200 - step = n → (sunriseLoop press true step).length = n := by
  intro n
  induction n with
  | zero =>
    intro step h
    rw [sunriseLoop, dif_neg (by omega : ¬ step < 200)]
    rfl
  | succ k ih =>
    intro step h
    rw [sunriseLoop, dif_pos (by omega : step < 200)]
    simp only [if_true, List.length_cons]
    rw [ih (step + 1) (by omega)]

/-- The animation loop's output does not depend on the button schedule:
the body never samples the button. -/
theorem sunriseLoop_press_irrelevant (press : Nat → Bool) :
    ∀ n step, 200 - step = n →
      sunriseLoop press true step = sunriseLoop (fun _ => false) true step := by
  intro n
  induction n with
  | zero =>
    intro step h
    have h200 : ¬ step < 200 := by omega
    rw [sunriseLoop, dif_neg h200, sunriseLoop, dif_neg h200]
  | succ k ih =>
    intro step h
    have h200 : step < 200 := by omega
    rw [sunriseLoop, dif_pos h200, ih (step + 1) (by omega)]
    conv_rhs => rw [sunriseLoop]
    rw [dif_pos h200]

/-- Once the current tick is past the trigger window, no further iteration
of `main`'s loop can fire the alarm transition. -/
theorem pollRun_no_fire (trigger : Nat → Bool) (T : Nat)
    (htrig : ∀ t, trigger t = decide (T ≤ t ∧ t < T + 1200)) :
    ∀ n s, T + 1200 ≤ s.now → (pollRun trigger n s).fired = s.fired := by
  intro n
  induction n with
  | zero => intro s h; rfl
  | succ k ih =>
    intro s h
    rw [pollRun]
    have hstep : pollStep trigger s = { s with now := s.now + 1 } := by
      rw [pollStep, if_neg]
      intro hcon
      rw [htrig s.now] at hcon
      have := of_decide_eq_true hcon.1
      omega
    rw [hstep]
    exact ih _ (by dsimp only; omega)

/-! ## Claim theorems: state machine and control flow -/

/-- Claim C1 (refuted by the code): a press during a running animation is
never observed.  `sunrise_animation` is called synchronously from `main`,
so `handle_alarm_button` — the only code that sets `alarm_active` to
False — cannot run while the loop runs, and the loop body samples no
input.  With a press arriving at step 60 (progress 0.3), all 200 steps
are still rendered, the episode flushes 201 frames (200 steps plus the
hold frame), and the run is identical under every press schedule; the
strip is cleared and the system reaches idle only after the full
20-minute episode, not within one poll interval of the press. -/
theorem sunrise_press_never_cancels :
    (sunriseLoop (fun step => step == 60) true 0).length = 200 ∧
    (∀ press : Nat → Bool, sunriseLoop press true 0 = sunriseLoop (fun _ => false) true 0) ∧
    (mainAlarmEpisode (fun step => step == 60)).frames.length = 201 ∧
    (mainAlarmEpisode (fun step => step == 60)).modeAfter = Mode.idle := by
  refine ⟨sunriseLoop_length _ 200 0 rfl,
    fun press => sunriseLoop_press_irrelevant press 200 0 rfl, ?_, rfl⟩
  show (sunriseLoop (fun step => step == 60) true 0 ++ [holdColor]).length = 201
  rw [List.length_append, sunriseLoop_length _ 200 0 rfl]
  rfl

/-- Claim C3: over a scheduled occurrence — the evaluator true on exactly
the 1200 poll ticks of the trigger minute — a run of `main`'s loop started
idle at the first trigger tick fires the idle-to-alarm transition exactly
once, however many iterations follow: the alarm branch is reachable only
when not already inside the (blocking) alarm episode, whose 24000 ticks
outlast the trigger window; the evaluator itself is a pure function of
the current instant with no edge detection. -/
theorem alarm_fires_exactly_once (T n : Nat) (trigger : Nat → Bool)
    (htrig : ∀ t, trigger t = decide (T ≤ t ∧ t < T + 1200))
    (hn : 1 ≤ n) :
    (pollRun trigger n { now := T, alarmActive := false, fired := 0 }).fired = 1 := by
  obtain ⟨k, rfl⟩ : ∃ k, n = k + 1 := ⟨n - 1, by omega⟩
  rw [pollRun]
  have hstep : pollStep trigger { now := T, alarmActive := false, fired := 0 } =
      { now := T + 24000, alarmActive := false, fired := 1 } := by
    rw [pollStep, if_pos]
    constructor
    · rw [htrig]
      simp only [decide_eq_true_eq]
      omega
    · rfl
  rw [hstep]
  exact pollRun_no_fire trigger T htrig k _ (by dsimp only; omega)

/-- Claim C3, witnessed: five loop iterations across the occurrence
starting at tick 100 fire the transition once. -/
theorem alarm_fires_exactly_once_witness :
    (pollRun (fun t => decide (100 ≤ t ∧ t < 100 + 1200)) 5
      { now := 100, alarmActive := false, fired := 0 }).fired = 1 :=
  alarm_fires_exactly_once 100 5 _ (fun t => rfl) (by norm_num)

/-- Claim C4 counterexample: after the animation completes naturally
(no press anywhere), the strip does not keep the hold colour — `main`
calls `clear_leds()` immediately after `sunrise_animation()` returns, so
completing the animation does itself clear the strip. -/
theorem episode_clears_strip_after_completion :
    (mainAlarmEpisode (fun _ => false)).stripAfterReturn = none ∧
    (mainAlarmEpisode (fun _ => false)).stripAfterReturn ≠ some holdColor :=
  ⟨rfl, fun hcon => Option.noConfusion hcon⟩

/-- Claim C4 (amended): after the final step the animation's last flush is
the Segment-B endpoint colour (101, 102, 94) — the hold frame — but the
hold persists only until `sunrise_animation` returns: `main` then clears
the strip and goes back to idle with no user action involved. -/
theorem episode_hold_then_cleared :
    (mainAlarmEpisode (fun _ => false)).frames.getLast? = some holdColor ∧
    holdColor = (101, 102, 94) ∧
    (mainAlarmEpisode (fun _ => false)).stripAfterReturn = none ∧
    (mainAlarmEpisode (fun _ => false)).modeAfter = Mode.idle := by
  refine ⟨?_, ?_, rfl, rfl⟩
  · show (sunriseLoop (fun _ => false) true 0 ++ [holdColor]).getLast? = some holdColor
    rw [List.getLast?_concat]
  · norm_num [holdColor, pyTrunc, Prod.ext_iff]

/-- Claim C8: a press held to 5.0 s or beyond fires the disable action,
and the settings record it writes back is exactly the stored record with
`enabled` set to false and the `time` field untouched — no other field
exists or changes. -/
theorem disable_alarm_preserves_time (stored : Settings) (d : ℚ) (h5 : 5 ≤ d) :
    idleOutcome d = IdleOutcome.disable ∧
    disableAlarm stored = { enabled := false, time := stored.time } :=
  ⟨if_pos h5, rfl⟩

/-- Claim C8, witnessed: a 6-second hold disables a 07:30 alarm and keeps
its stored time. -/
theorem disable_alarm_preserves_time_witness :
    idleOutcome 6 = IdleOutcome.disable ∧
    disableAlarm ⟨true, some (alarmTimeString 7 30)⟩ =
      { enabled := false, time := some (alarmTimeString 7 30) } :=
  disable_alarm_preserves_time ⟨true, some (alarmTimeString 7 30)⟩ 6 (by norm_num)

end AlarmClock
